import Mathlib

/-!
Verification of the clox bytecode compiler and virtual machine (C sources
under src/c) against its natural-language specification.  Each section
embeds the relevant C functions as Lean definitions and proves or refutes
the corresponding claim.
-/

namespace Clox

/-! ## Value model (value.h)

A `Value` is the C tagged union: nil, boolean, number (an IEEE-754 double,
carried here opaquely as its 64-bit pattern — no claim inspects the
numeric payload), or a heap-object pointer (modelled as a numeric id). -/

inductive Value where
  | vnil
  | vbool (b : Bool)
  | vnumber (bits : Nat)
  | vobj (o : Nat)
deriving DecidableEq, Repr

/-- C macro IS_NIL(value). -/
def IS_NIL : Value → Bool
  | .vnil => true
  | _ => false

/-- C macro IS_BOOL(value). -/
def IS_BOOL : Value → Bool
  | .vbool _ => true
  | _ => false

/-- C macro AS_BOOL(value); only ever applied under an IS_BOOL guard. -/
def AS_BOOL : Value → Bool
  | .vbool b => b
  | _ => false

/-! ## vm.c: isFalsey, OP_NOT, OP_JUMP_IF_FALSE (claim C10) -/

/-- vm.c isFalsey: `IS_NIL(value) || (IS_BOOL(value) && !AS_BOOL(value))`. -/
def isFalsey (value : Value) : Bool :=
  IS_NIL value || (IS_BOOL value && !AS_BOOL value)

/-- The operand stack, head = top of stack. -/
abbrev Stack := List Value

/-- vm.c OP_NOT: `push(BOOL_VAL(isFalsey(pop())))`.  `none` models the
stack-underflow case that the compiler's stack discipline rules out. -/
def opNot : Stack → Option Stack
  | v :: rest => some (Value.vbool (isFalsey v) :: rest)
  | [] => none

/-- vm.c OP_JUMP_IF_FALSE: `offset = READ_SHORT(); if (isFalsey(peek(0)))
frame->ip += offset;`.  Returns the new ip (the operand itself has already
been consumed by READ_SHORT in the C code; we take ip after the operand). -/
def opJumpIfFalse (ip offset : Nat) : Stack → Option Nat
  | v :: _ => some (if isFalsey v then ip + offset else ip)
  | [] => none

theorem isFalsey_iff (v : Value) :
    isFalsey v = true ↔ v = Value.vnil ∨ v = Value.vbool false := by
  cases v with
  | vnil => simp [isFalsey, IS_NIL, IS_BOOL, AS_BOOL]
  | vbool b => cases b <;> simp [isFalsey, IS_NIL, IS_BOOL, AS_BOOL]
  | vnumber bits => simp [isFalsey, IS_NIL, IS_BOOL, AS_BOOL]
  | vobj o => simp [isFalsey, IS_NIL, IS_BOOL, AS_BOOL]

/-- C10: a Value is falsey exactly when it is nil or the boolean false:
OP_NOT pushes true and OP_JUMP_IF_FALSE takes its branch precisely in
those two cases, and numbers (including 0), heap objects (including the
empty string) and true are all truthy. -/
theorem C10_falsiness (v : Value) (rest : Stack) (ip offset : Nat) :
    (isFalsey v = true ↔ v = Value.vnil ∨ v = Value.vbool false) ∧
    opNot (v :: rest) =
      some (Value.vbool (decide (v = Value.vnil ∨ v = Value.vbool false)) :: rest) ∧
    opJumpIfFalse ip offset (v :: rest) =
      some (if v = Value.vnil ∨ v = Value.vbool false then ip + offset else ip) ∧
    (∀ bits, isFalsey (Value.vnumber bits) = false) ∧
    (∀ o, isFalsey (Value.vobj o) = false) ∧
    isFalsey (Value.vbool true) = false := by
  refine ⟨isFalsey_iff v, ?_, ?_, ?_, ?_, rfl⟩
  · have h := isFalsey_iff v
    by_cases hv : v = Value.vnil ∨ v = Value.vbool false
    · simp [opNot, h.2 hv, hv]
    · have : isFalsey v = false := by
        cases hb : isFalsey v
        · rfl
        · exact absurd (h.1 hb) hv
      simp [opNot, this, hv]
  · have h := isFalsey_iff v
    by_cases hv : v = Value.vnil ∨ v = Value.vbool false
    · simp [opJumpIfFalse, h.2 hv, hv]
    · have : isFalsey v = false := by
        cases hb : isFalsey v
        · rfl
        · exact absurd (h.1 hb) hv
      simp [opJumpIfFalse, this, hv]
  · intro bits; rfl
  · intro o; rfl

/-! ## chunk.c / compiler.c: constant pool (claim C7) -/

/-- chunk.c: a chunk's constant pool, modelled as the list of Values in
`constants.values` (count = list length). -/
structure Chunk where
  code : List Nat
  lines : List Int
  constants : List Value
deriving Repr

/-- chunk.c addConstant: appends the value to the constant pool and
returns `constants.count - 1` (the push/pop around the write only roots
the value for the GC and does not change the pool). -/
def addConstant (chunk : Chunk) (value : Value) : Chunk × Nat :=
  let chunk' := { chunk with constants := chunk.constants ++ [value] }
  (chunk', chunk'.constants.length - 1)

def UINT8_MAX : Nat := 255

/-- compiler.c makeConstant: reports "Too many constants in one chunk."
and yields operand 0 when the index exceeds UINT8_MAX; emitted compile
errors are returned as a list of messages. -/
def makeConstant (chunk : Chunk) (value : Value) : Chunk × Nat × List String :=
  let r := addConstant chunk value
  if r.2 > UINT8_MAX then (r.1, 0, ["Too many constants in one chunk."])
  else (r.1, r.2, [])

/-- C7: addConstant appends the value and returns the new pool count minus
one; makeConstant errors exactly when that index exceeds 255 (returning
operand 0 then), so every emitted constant operand fits in 8 bits. -/
theorem C7_constant_pool (chunk : Chunk) (value : Value) :
    (addConstant chunk value).1.constants = chunk.constants ++ [value] ∧
    (addConstant chunk value).2 = (addConstant chunk value).1.constants.length - 1 ∧
    ((makeConstant chunk value).2.2 ≠ [] ↔ (addConstant chunk value).2 > 255) ∧
    ((addConstant chunk value).2 > 255 → (makeConstant chunk value).2.1 = 0) ∧
    (makeConstant chunk value).2.1 ≤ 255 ∧
    ((makeConstant chunk value).2.2 ≠ [] →
      (makeConstant chunk value).2.2 = ["Too many constants in one chunk."]) := by
  refine ⟨rfl, rfl, ?_, ?_, ?_, ?_⟩ <;>
    · simp only [makeConstant, UINT8_MAX]
      by_cases h : (addConstant chunk value).2 > 255 <;> simp [h] <;> omega

/-! ## compiler.c: Compiler records, slot 0, resolveLocal (claims C5, C8) -/

inductive FunctionType where
  | TYPE_FUNCTION
  | TYPE_INITIALIZER
  | TYPE_METHOD
  | TYPE_SCRIPT
deriving DecidableEq, Repr

/-- A scanner token as the compiler stores it in a Local: the lexeme text
(`start` points at the source in C; we carry the lexeme itself) and its
byte length. -/
structure SynToken where
  start : String
  length : Nat
deriving DecidableEq, Repr

structure Local where
  name : SynToken
  depth : Int
  isCaptured : Bool
deriving DecidableEq, Repr

/-- The parts of a compiler.c Compiler record the claims touch; the C
`localCount` is `locals.length`. -/
structure Compiler where
  type : FunctionType
  locals : List Local
  scopeDepth : Int
deriving Repr

/-- compiler.c initCompiler, restricted to the state the claims are
about: localCount and scopeDepth start at 0, and one reserved local is
pushed whose depth is 0 and whose name is "this" (length 4) when
`type != TYPE_FUNCTION`, else the empty string (length 0). -/
def initCompiler (type : FunctionType) : Compiler :=
  let slotZeroName : SynToken :=
    if type ≠ FunctionType.TYPE_FUNCTION then ⟨"this", 4⟩ else ⟨"", 0⟩
  { type := type
    locals := [⟨slotZeroName, 0, false⟩]
    scopeDepth := 0 }

/-- C5 counterexample: for TYPE_SCRIPT the reserved slot-0 local is named
"this" with length 4, not the empty name (length 0) the claim asserts for
SCRIPT. -/
theorem C5_counterexample :
    ((initCompiler FunctionType.TYPE_SCRIPT).locals.map fun l => l.name) =
      [⟨"this", 4⟩] ∧
    ¬ ∃ l, (initCompiler FunctionType.TYPE_SCRIPT).locals = [l] ∧
      l.name.length = 0 := by
  refine ⟨rfl, ?_⟩
  rintro ⟨l, hl, hlen⟩
  have : l = ⟨⟨"this", 4⟩, 0, false⟩ := by
    have h := congrArg (fun xs => xs.head?) hl
    simpa [initCompiler, eq_comm] using h
  subst this
  simp at hlen

/-- C5 amended: when compilation of a function begins, slot 0 of the
locals array is reserved (localCount becomes 1, depth 0, not captured):
for TYPE_FUNCTION it holds the callee slot with the empty name (length
0), and for TYPE_SCRIPT, TYPE_METHOD and TYPE_INITIALIZER it is named
`this` (length 4), so that method bodies can reference the receiver via
ordinary local resolution. -/
theorem C5_slot_zero (type : FunctionType) :
    (initCompiler type).locals.length = 1 ∧
    (initCompiler type).locals =
      [⟨if type = FunctionType.TYPE_FUNCTION then ⟨"", 0⟩ else ⟨"this", 4⟩,
        0, false⟩] := by
  cases type <;> simp [initCompiler]

/-- compiler.c identifiersEqual: equal lengths and equal bytes. -/
def identifiersEqual (a b : SynToken) : Bool :=
  a.length == b.length && a.start == b.start

/-- compiler.c resolveLocal's descending loop: `go n` inspects indices
n-1, n-2, ..., 0 in that order, mirroring
`for (int i = localCount - 1; i >= 0; i--)`.  Returns the resolved index
(-1 when not found) together with the compile errors reported. -/
def resolveLocalGo (locals : List Local) (name : SynToken) : Nat → Int × List String
  | 0 => (-1, [])
  | n + 1 =>
    match locals[n]? with
    | some lcl =>
      if identifiersEqual name lcl.name then
        (n, if lcl.depth = -1 then
              ["can't read local variable in its own initializer."]
            else [])
      else resolveLocalGo locals name n
    | none => resolveLocalGo locals name n

/-- compiler.c resolveLocal (lines 335-353). -/
def resolveLocal (compiler : Compiler) (name : SynToken) : Int × List String :=
  resolveLocalGo compiler.locals name compiler.locals.length

/-- C8 counterexample: resolving a local inside its own initializer
(depth -1) reports the lowercase message
"can't read local variable in its own initializer.", not the capitalized
"Can't read local variable in its own initializer" the claim states. -/
theorem C8_counterexample :
    (resolveLocal ⟨FunctionType.TYPE_SCRIPT, [⟨⟨"a", 1⟩, -1, false⟩], 0⟩
        ⟨"a", 1⟩).2 =
      ["can't read local variable in its own initializer."] ∧
    (resolveLocal ⟨FunctionType.TYPE_SCRIPT, [⟨⟨"a", 1⟩, -1, false⟩], 0⟩
        ⟨"a", 1⟩).2 ≠
      ["Can't read local variable in its own initializer"] ∧
    (resolveLocal ⟨FunctionType.TYPE_SCRIPT, [⟨⟨"a", 1⟩, -1, false⟩], 0⟩
        ⟨"a", 1⟩).2 ≠
      ["Can't read local variable in its own initializer."] := by
  refine ⟨?_, ?_, ?_⟩ <;> decide

/-- C8 amended: whenever resolveLocal finds the (last-to-first) matching
local and that local's depth is the uninitialized sentinel -1, the
compiler reports the compile error
"can't read local variable in its own initializer." and returns its
index. -/
theorem C8_uninitialized_local (compiler : Compiler) (name : SynToken)
    (i : Nat) (lcl : Local)
    (h1 : compiler.locals[i]? = some lcl)
    (hmatch : identifiersEqual name lcl.name = true)
    (hdepth : lcl.depth = -1)
    (hlast : ∀ j, i < j → ∀ l', compiler.locals[j]? = some l' →
      identifiersEqual name l'.name = false) :
    resolveLocal compiler name =
      ((i : Int), ["can't read local variable in its own initializer."]) := by
  have hi : i < compiler.locals.length := by
    by_contra h
    rw [List.getElem?_eq_none (Nat.le_of_not_lt h)] at h1
    exact Option.noConfusion h1
  unfold resolveLocal
  have key : ∀ n, i < n → n ≤ compiler.locals.length →
      resolveLocalGo compiler.locals name n =
        ((i : Int), ["can't read local variable in its own initializer."]) := by
    intro n
    induction n with
    | zero => intro h _; exact absurd h (Nat.not_lt_zero i)
    | succ m ih =>
      intro hin hle
      rcases Nat.lt_or_ge i m with him | him
      · have hm : resolveLocalGo compiler.locals name m = _ :=
          ih him (Nat.le_of_succ_le hle)
        unfold resolveLocalGo
        cases hcell : compiler.locals[m]? with
        | none => simpa [hcell] using hm
        | some l' =>
          have := hlast m him l' hcell
          simpa [hcell, this] using hm
      · have him' : i = m := Nat.le_antisymm (Nat.le_of_lt_succ hin) him
        subst him'
        unfold resolveLocalGo
        simp [h1, hmatch, hdepth]
  exact key compiler.locals.length hi (Nat.le_refl _)

/-- C8 amended, witness at a concrete input. -/
theorem C8_uninitialized_local_witness :
    resolveLocal ⟨FunctionType.TYPE_FUNCTION,
        [⟨⟨"", 0⟩, 0, false⟩, ⟨⟨"x", 1⟩, -1, false⟩], 1⟩ ⟨"x", 1⟩ =
      (1, ["can't read local variable in its own initializer."]) := by
  apply C8_uninitialized_local
      ⟨FunctionType.TYPE_FUNCTION,
        [⟨⟨"", 0⟩, 0, false⟩, ⟨⟨"x", 1⟩, -1, false⟩], 1⟩ ⟨"x", 1⟩ 1
      ⟨⟨"x", 1⟩, -1, false⟩
  · rfl
  · rfl
  · rfl
  · intro j hj l' hl'
    have h2 : 2 ≤ j := hj
    rw [List.getElem?_eq_none (by simpa using h2)] at hl'
    exact Option.noConfusion hl'

/-! ## memory.c / vm.c: GC trigger accounting (claim C9)

`bytesAllocated` and `nextGC` are C `size_t` values; their arithmetic is
modelled exactly, modulo 2^64. -/

def TWO64 : Nat := 2 ^ 64

def GC_HEAP_GROW_FACTOR : Nat := 2

structure GCState where
  bytesAllocated : Nat
  nextGC : Nat
deriving DecidableEq, Repr

/-- vm.c initVM: `vm.bytesAllocated = 0; vm.nextGC = 1024 * 1024;`. -/
def initVMGC : GCState :=
  { bytesAllocated := 0, nextGC := 1024 * 1024 }

/-- memory.c collectGarbage's effect on the accounting fields: the sweep
frees `freed` bytes (each free runs through reallocate with newSize 0,
subtracting its size), then `vm.nextGC = vm.bytesAllocated *
GC_HEAP_GROW_FACTOR`. -/
def collectGarbage (st : GCState) (freed : Nat) : GCState :=
  let ba := st.bytesAllocated - freed
  { bytesAllocated := ba, nextGC := ba * GC_HEAP_GROW_FACTOR % TWO64 }

/-- memory.c reallocate: `vm.bytesAllocated += newSize - oldSize;` in
size_t arithmetic, then `if (newSize > oldSize)` and `if
(vm.bytesAllocated > vm.nextGC) collectGarbage();`.  Returns the updated
state and whether collectGarbage ran. -/
def reallocate (st : GCState) (oldSize newSize freed : Nat) : GCState × Bool :=
  let ba := (st.bytesAllocated + newSize + (TWO64 - oldSize % TWO64)) % TWO64
  let st' := { st with bytesAllocated := ba }
  if newSize > oldSize then
    if ba > st.nextGC then (collectGarbage st' freed, true)
    else (st', false)
  else (st', false)

/-- C9: a collection is triggered only by an allocation that grows
bytesAllocated past nextGC (never by a shrinking reallocation), the
initial threshold is 1 MiB, and after every collection cycle nextGC
equals bytesAllocated × 2 (exactly, whenever the product does not
overflow size_t). -/
theorem C9_gc_accounting (st : GCState) (oldSize newSize freed : Nat) :
    initVMGC.nextGC = 1024 * 1024 ∧
    (newSize ≤ oldSize → (reallocate st oldSize newSize freed).2 = false) ∧
    ((reallocate st oldSize newSize freed).2 = true ↔
      oldSize < newSize ∧
        (st.bytesAllocated + newSize + (TWO64 - oldSize % TWO64)) % TWO64 >
          st.nextGC) ∧
    (collectGarbage st freed).nextGC =
      (collectGarbage st freed).bytesAllocated * GC_HEAP_GROW_FACTOR % TWO64 ∧
    (st.bytesAllocated * 2 < TWO64 →
      (collectGarbage st freed).nextGC =
        (collectGarbage st freed).bytesAllocated * 2) ∧
    ((reallocate st oldSize newSize freed).2 = true →
      (reallocate st oldSize newSize freed).1.nextGC =
        (reallocate st oldSize newSize freed).1.bytesAllocated *
          GC_HEAP_GROW_FACTOR % TWO64) := by
  refine ⟨rfl, ?_, ?_, rfl, ?_, ?_⟩
  · intro h
    simp [reallocate, Nat.not_lt.mpr h]
  · constructor
    · intro h
      by_cases h1 : oldSize < newSize
      · by_cases h2 : (st.bytesAllocated + newSize + (TWO64 - oldSize % TWO64)) %
            TWO64 > st.nextGC
        · exact ⟨h1, h2⟩
        · simp [reallocate, h1, h2] at h
      · simp [reallocate, h1] at h
    · rintro ⟨h1, h2⟩
      simp [reallocate, h1, h2]
  · intro h
    have hle : st.bytesAllocated - freed ≤ st.bytesAllocated := Nat.sub_le _ _
    have : (st.bytesAllocated - freed) * 2 < TWO64 :=
      Nat.lt_of_le_of_lt (Nat.mul_le_mul_right 2 hle) h
    simp [collectGarbage, GC_HEAP_GROW_FACTOR, Nat.mod_eq_of_lt this]
  · intro h
    by_cases h1 : oldSize < newSize
    · by_cases h2 : (st.bytesAllocated + newSize + (TWO64 - oldSize % TWO64)) %
          TWO64 > st.nextGC
      · simp [reallocate, h1, h2, collectGarbage]
      · simp [reallocate, h1, h2] at h
    · simp [reallocate, h1] at h

/-- C9 witness: shrinking does not trigger; a growth past the threshold
does, and the new threshold is double the surviving bytes. -/
theorem C9_gc_accounting_witness :
    initVMGC.nextGC = 1024 * 1024 ∧
    (reallocate ⟨100, 1024 * 1024⟩ 50 10 0).2 = false ∧
    (reallocate ⟨1024 * 1024, 1024 * 1024⟩ 0 8 4).2 = true ∧
    (reallocate ⟨1024 * 1024, 1024 * 1024⟩ 0 8 4).1.nextGC =
      (1024 * 1024 + 8 - 4) * 2 := by
  have h1 := C9_gc_accounting ⟨100, 1024 * 1024⟩ 50 10 0
  have h2 := C9_gc_accounting ⟨1024 * 1024, 1024 * 1024⟩ 0 8 4
  refine ⟨h1.1, h1.2.1 (by decide), h2.2.2.1.2 ⟨by decide, ?_⟩, ?_⟩
  · decide
  · have := h2.2.2.2.2.2
    rw [this]
    · decide
    · exact h2.2.2.1.2 ⟨by decide, by decide⟩

/-! ## vm.c: the open-upvalue list (claim C2)

An open ObjUpvalue is identified by `uid` (its heap address, for
identity) and `location` (the stack-slot address its location pointer
holds).  `vm.openUpvalues` is the list, head first. -/

structure ObjUpvalue where
  uid : Nat
  location : Nat
deriving DecidableEq, Repr

/-- vm.c captureUpvalue (lines 222-253): walk while `upvalue->location >
local`; return the existing upvalue if one already points at `local`;
otherwise splice a fresh one (heap address `fresh`) in at that position.
Returns (the returned upvalue, the new openUpvalues list). -/
def captureUpvalue : List ObjUpvalue → Nat → Nat → ObjUpvalue × List ObjUpvalue
  | [], lcl, fresh => (⟨fresh, lcl⟩, [⟨fresh, lcl⟩])
  | u :: rest, lcl, fresh =>
    if u.location > lcl then
      let r := captureUpvalue rest lcl fresh
      (r.1, u :: r.2)
    else if u.location = lcl then (u, u :: rest)
    else (⟨fresh, lcl⟩, ⟨fresh, lcl⟩ :: u :: rest)

/-- vm.c closeUpvalues (lines 257-266): pop every head upvalue whose
location is ≥ `last` (closing it copies the value into `closed`; only
the list structure matters here). -/
def closeUpvalues (l : List ObjUpvalue) (last : Nat) : List ObjUpvalue :=
  l.dropWhile fun u => decide (last ≤ u.location)

/-- The spec's sorted invariant: locations strictly decreasing from the
head. -/
def UpvaluesSorted (l : List ObjUpvalue) : Prop :=
  l.Pairwise fun a b => a.location > b.location

theorem mem_captureUpvalue_snd {l : List ObjUpvalue} {lcl fresh : Nat}
    {v : ObjUpvalue} (h : v ∈ (captureUpvalue l lcl fresh).2) :
    v ∈ l ∨ v = ⟨fresh, lcl⟩ := by
  induction l with
  | nil =>
    simp [captureUpvalue] at h
    exact Or.inr h
  | cons u rest ih =>
    by_cases h1 : u.location > lcl
    · simp only [captureUpvalue, if_pos h1, List.mem_cons] at h
      rcases h with h | h
      · exact Or.inl (h ▸ List.mem_cons_self u rest)
      · rcases ih h with h' | h'
        · exact Or.inl (List.mem_cons_of_mem u h')
        · exact Or.inr h'
    · by_cases h2 : u.location = lcl
      · simp only [captureUpvalue, if_neg h1, if_pos h2] at h
        exact Or.inl h
      · simp only [captureUpvalue, if_neg h1, if_neg h2, List.mem_cons] at h
        rcases h with h | h | h
        · exact Or.inr h
        · exact Or.inl (h ▸ List.mem_cons_self u rest)
        · exact Or.inl (List.mem_cons_of_mem u h)

theorem captureUpvalue_sorted {l : List ObjUpvalue} {lcl fresh : Nat}
    (hs : UpvaluesSorted l) :
    UpvaluesSorted (captureUpvalue l lcl fresh).2 := by
  induction l with
  | nil => simp [captureUpvalue, UpvaluesSorted]
  | cons u rest ih =>
    have htail : UpvaluesSorted rest := hs.tail
    have hhead : ∀ v ∈ rest, u.location > v.location :=
      fun v hv => List.rel_of_pairwise_cons hs hv
    by_cases h1 : u.location > lcl
    · simp only [captureUpvalue, if_pos h1]
      refine List.Pairwise.cons ?_ (ih htail)
      intro v hv
      rcases mem_captureUpvalue_snd hv with h | h
      · exact hhead v h
      · simpa [h] using h1
    · by_cases h2 : u.location = lcl
      · simpa [captureUpvalue, if_neg h1, if_pos h2, UpvaluesSorted] using hs
      · have h3 : u.location < lcl := by omega
        simp only [captureUpvalue, if_neg h1, if_neg h2]
        refine List.Pairwise.cons ?_ hs
        intro v hv
        rcases List.mem_cons.1 hv with h | h
        · simpa [h] using h3
        · exact Nat.lt_trans (hhead v h) h3

theorem captureUpvalue_existing {l : List ObjUpvalue} {lcl fresh : Nat}
    {u : ObjUpvalue} (hs : UpvaluesSorted l) (hmem : u ∈ l)
    (hloc : u.location = lcl) :
    captureUpvalue l lcl fresh = (u, l) := by
  induction l with
  | nil => cases hmem
  | cons x rest ih =>
    have hhead : ∀ v ∈ rest, x.location > v.location :=
      fun v hv => List.rel_of_pairwise_cons hs hv
    by_cases h1 : x.location > lcl
    · have hur : u ∈ rest := by
        rcases List.mem_cons.1 hmem with h | h
        · exact absurd (h ▸ hloc) (Nat.ne_of_gt h1)
        · exact h
      simp only [captureUpvalue, if_pos h1, ih hs.tail hur]
    · by_cases h2 : x.location = lcl
      · have hux : u = x := by
          rcases List.mem_cons.1 hmem with h | h
          · exact h
          · exact absurd (hloc ▸ hhead u h) (by simp [h2])
        simp [captureUpvalue, if_neg h1, if_pos h2, hux]
      · exfalso
        have h3 : x.location < lcl := by omega
        rcases List.mem_cons.1 hmem with h | h
        · exact h2 (h ▸ hloc)
        · exact Nat.lt_asymm h3 (hloc ▸ hhead u h)

theorem captureUpvalue_new {l : List ObjUpvalue} {lcl fresh : Nat}
    (hnone : ∀ v ∈ l, v.location ≠ lcl) :
    (captureUpvalue l lcl fresh).1 = ⟨fresh, lcl⟩ ∧
    ∀ v, v ∈ (captureUpvalue l lcl fresh).2 ↔ v ∈ l ∨ v = ⟨fresh, lcl⟩ := by
  induction l with
  | nil => simp [captureUpvalue]
  | cons u rest ih =>
    by_cases h1 : u.location > lcl
    · have ih' := ih fun v hv => hnone v (List.mem_cons_of_mem u hv)
      simp only [captureUpvalue, if_pos h1]
      refine ⟨ih'.1, fun v => ?_⟩
      rw [List.mem_cons, ih'.2 v, List.mem_cons]
      tauto
    · have h2 : u.location ≠ lcl := hnone u (List.mem_cons_self u rest)
      simp only [captureUpvalue, if_neg h1, if_neg h2]
      refine ⟨by trivial, fun v => ?_⟩
      simp only [List.mem_cons]
      tauto

/-- C2: captureUpvalue and closeUpvalues preserve the strictly-decreasing
order of the open-upvalue list; captureUpvalue returns the existing
upvalue (and leaves the list unchanged) whenever one already points at
the requested slot, and otherwise returns a fresh upvalue spliced in; and
a sorted list holds at most one open upvalue per stack slot. -/
theorem C2_open_upvalue_list (l : List ObjUpvalue) (lcl fresh last : Nat)
    (u : ObjUpvalue) (hs : UpvaluesSorted l) :
    UpvaluesSorted (captureUpvalue l lcl fresh).2 ∧
    UpvaluesSorted (closeUpvalues l last) ∧
    (u ∈ l → u.location = lcl → captureUpvalue l lcl fresh = (u, l)) ∧
    ((∀ v ∈ l, v.location ≠ lcl) →
      (captureUpvalue l lcl fresh).1 = ⟨fresh, lcl⟩ ∧
      ∀ v, v ∈ (captureUpvalue l lcl fresh).2 ↔ v ∈ l ∨ v = ⟨fresh, lcl⟩) ∧
    (l.map fun v => v.location).Nodup := by
  refine ⟨captureUpvalue_sorted hs, ?_, fun h1 h2 => captureUpvalue_existing hs h1 h2,
    fun h => captureUpvalue_new h, ?_⟩
  · have hsub : (closeUpvalues l last).Sublist l :=
      (List.dropWhile_suffix _).sublist
    exact hs.sublist hsub
  · have h1 : l.Pairwise fun a b => a.location ≠ b.location :=
      hs.imp fun h => Nat.ne_of_gt h
    exact List.pairwise_map.2 h1

/-- C2 witness: on the sorted list [(uid 1, loc 10), (uid 2, loc 5)],
capturing slot 5 returns the existing upvalue and capturing slot 7
splices a fresh one in the middle. -/
theorem C2_open_upvalue_list_witness :
    captureUpvalue [⟨1, 10⟩, ⟨2, 5⟩] 5 9 = (⟨2, 5⟩, [⟨1, 10⟩, ⟨2, 5⟩]) ∧
    (captureUpvalue [⟨1, 10⟩, ⟨2, 5⟩] 7 9).1 = ⟨9, 7⟩ ∧
    UpvaluesSorted (captureUpvalue [⟨1, 10⟩, ⟨2, 5⟩] 7 9).2 ∧
    UpvaluesSorted (closeUpvalues [⟨1, 10⟩, ⟨2, 5⟩] 6) := by
  have hs : UpvaluesSorted [⟨1, 10⟩, ⟨2, 5⟩] := by
    unfold UpvaluesSorted
    decide
  have h5 := C2_open_upvalue_list [⟨1, 10⟩, ⟨2, 5⟩] 5 9 6 ⟨2, 5⟩ hs
  have h7 := C2_open_upvalue_list [⟨1, 10⟩, ⟨2, 5⟩] 7 9 6 ⟨2, 5⟩ hs
  refine ⟨h5.2.2.1 (by decide) rfl, (h7.2.2.2.1 (by decide)).1, h7.1, h7.2.1⟩

/-! ## vm.c: call / OP_CALL (claim C4)

The operand stack is modelled bottom-first here (index 0 = vm.stack[0]),
so `stackTop` is the list length and C pointer arithmetic on Value*
becomes index arithmetic. -/

def FRAMES_MAX : Nat := 64

structure ObjFunction where
  arity : Nat
deriving DecidableEq, Repr

structure ObjClosure where
  function : ObjFunction
deriving DecidableEq, Repr

/-- vm.h CallFrame: `slots` is the index into vm.stack where the frame's
slot 0 lives; `ip` is an offset into the closure's chunk. -/
structure CallFrame where
  closure : ObjClosure
  ip : Nat
  slots : Nat
deriving DecidableEq, Repr

structure VMCallState where
  stack : List Value
  frames : List CallFrame
deriving Repr

/-- vm.c call (lines 109-130): arity check, frame-overflow check, then
push a CallFrame with `slots = stackTop - argCount - 1`. -/
def call (st : VMCallState) (closure : ObjClosure) (argCount : Nat) :
    Except String VMCallState :=
  if argCount ≠ closure.function.arity then
    .error ("Expected " ++ toString closure.function.arity ++
      " arguments but got " ++ toString argCount ++ ".")
  else if st.frames.length = FRAMES_MAX then
    .error "Stack overflow."
  else
    .ok { st with frames := st.frames ++
      [⟨closure, 0, st.stack.length - argCount - 1⟩] }

/-- C4: an OP_CALL dispatching to a Closure raises
"Expected N arguments but got M." on arity mismatch, raises
"Stack overflow." at 64 frames, and otherwise pushes a frame whose slots
base is stackTop - argc - 1, so slot 0 holds the peeked callee itself and
slots 1..argc hold the arguments. -/
theorem C4_op_call (st : VMCallState) (closure : ObjClosure) (argCount : Nat)
    (base args : List Value) (calleeVal : Value)
    (hstack : st.stack = base ++ calleeVal :: args)
    (hargs : args.length = argCount) :
    st.stack[st.stack.length - 1 - argCount]? = some calleeVal ∧
    (argCount ≠ closure.function.arity →
      call st closure argCount = .error ("Expected " ++
        toString closure.function.arity ++ " arguments but got " ++
        toString argCount ++ ".")) ∧
    (argCount = closure.function.arity → st.frames.length = FRAMES_MAX →
      call st closure argCount = .error "Stack overflow.") ∧
    (argCount = closure.function.arity → st.frames.length ≠ FRAMES_MAX →
      call st closure argCount =
        .ok { st with frames := st.frames ++ [⟨closure, 0, base.length⟩] } ∧
      st.stack.length - argCount - 1 = base.length ∧
      st.stack[base.length]? = some calleeVal ∧
      ∀ j, j < argCount → st.stack[base.length + 1 + j]? = args[j]?) := by
  have hlen : st.stack.length = base.length + 1 + args.length := by
    simp [hstack]
    omega
  have hpeek : st.stack[st.stack.length - 1 - argCount]? = some calleeVal := by
    have hidx : st.stack.length - 1 - argCount = base.length := by omega
    rw [hidx, hstack, List.getElem?_append_right (Nat.le_refl _)]
    simp
  refine ⟨hpeek, ?_, ?_, ?_⟩
  · intro h
    simp [call, h]
  · intro h1 h2
    simp [call, h1, h2]
  · intro h1 h2
    have hbase : st.stack.length - argCount - 1 = base.length := by omega
    refine ⟨?_, hbase, ?_, ?_⟩
    · simp only [call, hbase]
      rw [if_neg (by omega), if_neg h2]
    · rw [hstack, List.getElem?_append_right (Nat.le_refl _)]
      simp
    · intro j hj
      rw [hstack, List.getElem?_append_right (by omega)]
      have : base.length + 1 + j - base.length = j + 1 := by omega
      rw [this]
      simp

/-- C4 witness: calling a 1-ary closure with 1 argument on stack
[callee, arg] from an empty frame stack. -/
theorem C4_op_call_witness :
    call ⟨[Value.vobj 5, Value.vnumber 7], []⟩ ⟨⟨1⟩⟩ 1 =
      .ok ⟨[Value.vobj 5, Value.vnumber 7], [⟨⟨⟨1⟩⟩, 0, 0⟩]⟩ ∧
    call ⟨[Value.vobj 5, Value.vnumber 7], []⟩ ⟨⟨2⟩⟩ 1 =
      .error "Expected 2 arguments but got 1." := by
  have h1 := C4_op_call ⟨[Value.vobj 5, Value.vnumber 7], []⟩ ⟨⟨1⟩⟩ 1
    [] [Value.vnumber 7] (Value.vobj 5) rfl rfl
  have h2 := C4_op_call ⟨[Value.vobj 5, Value.vnumber 7], []⟩ ⟨⟨2⟩⟩ 1
    [] [Value.vnumber 7] (Value.vobj 5) rfl rfl
  exact ⟨(h1.2.2.2 rfl (by decide)).1, h2.2.1 (by decide)⟩

/-! ## vm.c: OP_SET_GLOBAL over the globals table (claim C3)

The globals table is used by the VM purely through its key→value
mapping; it is modelled here as an association list whose operations
mirror the table.c contracts (tableSet returns true iff the key is new;
tableDelete removes the key).  The physical open-addressed table itself
is embedded separately below for claim C6. -/

abbrev Globals := List (String × Value)

/-- table.c tableGet, at the mapping level. -/
def tableGetG (t : Globals) (k : String) : Option Value :=
  (t.find? fun e => decide (e.1 = k)).map fun e => e.2

/-- table.c tableSet, at the mapping level: update in place if the key
exists (returning false), otherwise insert (returning true, the
isNewKey result). -/
def tableSetG (t : Globals) (k : String) (v : Value) : Globals × Bool :=
  match t with
  | [] => ([(k, v)], true)
  | e :: rest =>
    if e.1 = k then ((k, v) :: rest, false)
    else
      let r := tableSetG rest k v
      (e :: r.1, r.2)

/-- table.c tableDelete, at the mapping level. -/
def tableDeleteG (t : Globals) (k : String) : Globals × Bool :=
  match t with
  | [] => ([], false)
  | e :: rest =>
    if e.1 = k then (rest, true)
    else
      let r := tableDeleteG rest k
      (e :: r.1, r.2)

/-- vm.c OP_SET_GLOBAL (lines 402-410): `if (tableSet(&vm.globals, name,
peek(0))) { tableDelete(&vm.globals, name); runtimeError("Undefined
variable '%s'."); return INTERPRET_RUNTIME_ERROR; }`.  The error carries
the message and the globals table as left behind; `none` is the
stack-underflow case the compiler rules out. -/
def opSetGlobal (globals : Globals) (name : String) (stack : Stack) :
    Option (Except (String × Globals) (Globals × Stack)) :=
  match stack with
  | v :: rest =>
    let r := tableSetG globals name v
    if r.2 then
      some (.error ("Undefined variable '" ++ name ++ "'.",
        (tableDeleteG r.1 name).1))
    else some (.ok (r.1, v :: rest))
  | [] => none

theorem tableSetG_isNew (t : Globals) (k : String) (v : Value) :
    (tableSetG t k v).2 = true ↔ tableGetG t k = none := by
  induction t with
  | nil => simp [tableSetG, tableGetG]
  | cons e rest ih =>
    by_cases h : e.1 = k
    · simp [tableSetG, tableGetG, h, List.find?]
    · simp only [tableSetG, if_neg h]
      rw [ih]
      simp [tableGetG, List.find?, h]

theorem tableSetG_then_delete (t : Globals) (k : String) (v : Value)
    (h : tableGetG t k = none) :
    (tableDeleteG (tableSetG t k v).1 k).1 = t := by
  induction t with
  | nil => simp [tableSetG, tableDeleteG]
  | cons e rest ih =>
    have hek : ¬ e.1 = k := by
      intro hek
      simp [tableGetG, List.find?, hek] at h
    have hrest : tableGetG rest k = none := by
      simpa [tableGetG, List.find?, hek] using h
    simp only [tableSetG, if_neg hek, tableDeleteG]
    rw [ih hrest]

theorem tableSetG_get_self (t : Globals) (k : String) (v : Value) :
    tableGetG (tableSetG t k v).1 k = some v := by
  induction t with
  | nil => simp [tableSetG, tableGetG, List.find?]
  | cons e rest ih =>
    by_cases h : e.1 = k
    · simp [tableSetG, tableGetG, h, List.find?]
    · simp only [tableSetG, if_neg h]
      simpa [tableGetG, List.find?, h] using ih

theorem tableSetG_get_other (t : Globals) (k k' : String) (v : Value)
    (hne : k' ≠ k) :
    tableGetG (tableSetG t k v).1 k' = tableGetG t k' := by
  induction t with
  | nil =>
    have h0 : ¬ (k = k') := fun h => hne h.symm
    simp [tableSetG, tableGetG, List.find?, h0]
  | cons e rest ih =>
    by_cases h : e.1 = k
    · subst h
      have h2 : ¬ (e.1 = k') := fun hh => hne hh.symm
      simp [tableSetG, tableGetG, List.find?, h2]
    · simp only [tableSetG, if_neg h]
      by_cases h' : e.1 = k'
      · simp [tableGetG, List.find?, h']
      · simpa [tableGetG, List.find?, h'] using ih

/-- C3: OP_SET_GLOBAL on an undefined name raises
"Undefined variable '<name>'." and leaves the globals table unchanged
(the tentatively inserted key is deleted again); on a defined name it
updates the entry — other keys untouched — and keeps the assigned value
on top of the operand stack. -/
theorem C3_op_set_global (globals : Globals) (name : String) (v : Value)
    (rest : Stack) :
    (tableGetG globals name = none →
      opSetGlobal globals name (v :: rest) =
        some (.error ("Undefined variable '" ++ name ++ "'.", globals))) ∧
    (∀ w, tableGetG globals name = some w →
      opSetGlobal globals name (v :: rest) =
        some (.ok ((tableSetG globals name v).1, v :: rest)) ∧
      tableGetG (tableSetG globals name v).1 name = some v ∧
      ∀ k, k ≠ name →
        tableGetG (tableSetG globals name v).1 k = tableGetG globals k) := by
  constructor
  · intro h
    have hnew : (tableSetG globals name v).2 = true :=
      (tableSetG_isNew globals name v).2 h
    have hdel := tableSetG_then_delete globals name v h
    simp [opSetGlobal, hnew, hdel]
  · intro w hw
    have hnotnew : (tableSetG globals name v).2 = false := by
      cases hb : (tableSetG globals name v).2
      · rfl
      · rw [(tableSetG_isNew globals name v).1 hb] at hw
        exact Option.noConfusion hw
    refine ⟨?_, tableSetG_get_self globals name v,
      fun k hk => tableSetG_get_other globals name k v hk⟩
    simp [opSetGlobal, hnotnew]

/-- C3 witness: assigning to an undefined global errors and leaves the
table unchanged; assigning to a defined one updates it in place. -/
theorem C3_op_set_global_witness :
    opSetGlobal [("x", Value.vnumber 1)] "y" [Value.vnumber 2] =
      some (.error ("Undefined variable 'y'.", [("x", Value.vnumber 1)])) ∧
    opSetGlobal [("x", Value.vnumber 1)] "x" [Value.vnumber 2] =
      some (.ok ([("x", Value.vnumber 2)], [Value.vnumber 2])) := by
  have h1 := C3_op_set_global [("x", Value.vnumber 1)] "y" (Value.vnumber 2) []
  have h2 := C3_op_set_global [("x", Value.vnumber 1)] "x" (Value.vnumber 2) []
  refine ⟨h1.1 (by decide), ?_⟩
  have := (h2.2 (Value.vnumber 1) (by decide)).1
  rw [this]
  rfl

/-! ## object.c: string interning (claim C1)

An ObjString is identified by its heap address (`StrId`) and carries its
byte contents.  `vm.strings` is the intern table; only its key set
matters (values are nil), so it is modelled as the list of interned
(address, contents) pairs. -/

abbrev StrId := Nat

structure InternState where
  strings : List (StrId × List Nat)
  nextId : StrId
deriving Repr

/-- object.c hashString: FNV-1a over the bytes, in uint32_t
arithmetic. -/
def hashString (key : List Nat) : Nat :=
  key.foldl (fun hash b => ((hash ^^^ (b % 256)) * 16777619) % (2 ^ 32))
    2166136261

/-- table.c tableFindString: walk the table comparing length, hash and
byte contents, returning the canonical ObjString (here its address). -/
def tableFindString (strings : List (StrId × List Nat)) (chars : List Nat)
    (length hash : Nat) : Option StrId :=
  (strings.find? fun e =>
    decide (e.2.length = length ∧ hashString e.2 = hash ∧ e.2 = chars)).map
    fun e => e.1

/-- object.c copyString: hash, look up in vm.strings, return the interned
string when found; otherwise allocate a fresh ObjString (address
`nextId`) and insert it into vm.strings (allocateString's tableSet). -/
def copyString (st : InternState) (chars : List Nat) : StrId × InternState :=
  let hash := hashString chars
  match tableFindString st.strings chars chars.length hash with
  | some interned => (interned, st)
  | none => (st.nextId, ⟨(st.nextId, chars) :: st.strings, st.nextId + 1⟩)

/-- object.c takeString: identical interning logic to copyString; the
only difference in C is freeing the transient buffer when the string was
already interned. -/
def takeString (st : InternState) (chars : List Nat) : StrId × InternState :=
  let hash := hashString chars
  match tableFindString st.strings chars chars.length hash with
  | some interned => (interned, st)
  | none => (st.nextId, ⟨(st.nextId, chars) :: st.strings, st.nextId + 1⟩)

/-- Well-formedness of the intern table: no two interned strings share
contents, addresses are distinct, and every address predates the
allocator's next one. -/
structure InternWF (st : InternState) : Prop where
  contentsNodup : (st.strings.map fun e => e.2).Nodup
  idsNodup : (st.strings.map fun e => e.1).Nodup
  idsFresh : ∀ e ∈ st.strings, e.1 < st.nextId

theorem nodup_map_mem_inj {α β : Type} {f : α → β} {l : List α}
    (h : (l.map f).Nodup) {a b : α} (ha : a ∈ l) (hb : b ∈ l)
    (hf : f a = f b) : a = b := by
  induction l with
  | nil => cases ha
  | cons x xs ih =>
    rcases List.mem_cons.1 ha with rfl | ha' <;>
      rcases List.mem_cons.1 hb with rfl | hb'
    · rfl
    · exact absurd (hf ▸ List.mem_map_of_mem f hb') (List.nodup_cons.1 h).1
    · exact absurd (hf ▸ List.mem_map_of_mem f ha') (List.nodup_cons.1 h).1
    · exact ih (List.nodup_cons.1 h).2 ha' hb'

theorem tableFindString_some {strings : List (StrId × List Nat)}
    {chars : List Nat} {i : StrId}
    (h : tableFindString strings chars chars.length (hashString chars) =
      some i) : (i, chars) ∈ strings := by
  unfold tableFindString at h
  cases hfind : strings.find? fun e =>
      decide (e.2.length = chars.length ∧ hashString e.2 = hashString chars ∧
        e.2 = chars) with
  | none => rw [hfind] at h; exact Option.noConfusion h
  | some e =>
    rw [hfind] at h
    have hmem := List.mem_of_find?_eq_some hfind
    have hpred := List.find?_some hfind
    have he2 : e.2 = chars := (of_decide_eq_true hpred).2.2
    have he1 : e.1 = i := by simpa using h
    have : e = (i, chars) := by
      cases e
      simp_all
    exact this ▸ hmem

theorem tableFindString_of_mem {strings : List (StrId × List Nat)}
    {chars : List Nat} {i : StrId}
    (hnodup : (strings.map fun e => e.2).Nodup)
    (hmem : (i, chars) ∈ strings) :
    tableFindString strings chars chars.length (hashString chars) =
      some i := by
  induction strings with
  | nil => cases hmem
  | cons e rest ih =>
    have hnodup' : e.2 ∉ rest.map (fun e => e.2) ∧
        (rest.map fun e => e.2).Nodup := by
      simpa [List.nodup_cons] using hnodup
    by_cases hpred : e.2 = chars
    · have heq : (i, chars) = e := by
        rcases List.mem_cons.1 hmem with h | h
        · exact h
        · have hc : chars ∈ rest.map fun e => e.2 := by
            simpa using List.mem_map_of_mem (fun e => e.2) h
          rw [← hpred] at hc
          exact absurd hc hnodup'.1
      unfold tableFindString
      rw [List.find?_cons_of_pos _ (by simp [hpred])]
      simp [← heq]
    · have hne : (i, chars) ≠ e := by
        intro hh
        exact hpred (congrArg (fun p => p.2) hh.symm)
      have hmem' : (i, chars) ∈ rest := by
        rcases List.mem_cons.1 hmem with h | h
        · exact absurd h hne
        · exact h
      unfold tableFindString
      rw [List.find?_cons_of_neg _ (by simp [hpred])]
      exact ih hnodup'.2 hmem'

theorem copyString_eq_found {st : InternState} {chars : List Nat} {i : StrId}
    (h : tableFindString st.strings chars chars.length (hashString chars) =
      some i) : copyString st chars = (i, st) := by
  simp only [copyString]
  rw [h]

theorem copyString_eq_new {st : InternState} {chars : List Nat}
    (h : tableFindString st.strings chars chars.length (hashString chars) =
      none) :
    copyString st chars =
      (st.nextId, ⟨(st.nextId, chars) :: st.strings, st.nextId + 1⟩) := by
  simp only [copyString]
  rw [h]

theorem copyString_mem (st : InternState) (chars : List Nat) :
    ((copyString st chars).1, chars) ∈ (copyString st chars).2.strings := by
  cases hfind : tableFindString st.strings chars chars.length
      (hashString chars) with
  | none => rw [copyString_eq_new hfind]; simp
  | some interned =>
    rw [copyString_eq_found hfind]
    exact tableFindString_some hfind

theorem copyString_superset {st : InternState} {chars : List Nat}
    {e : StrId × List Nat} (h : e ∈ st.strings) :
    e ∈ (copyString st chars).2.strings := by
  cases hfind : tableFindString st.strings chars chars.length
      (hashString chars) with
  | none =>
    rw [copyString_eq_new hfind]
    exact List.mem_cons_of_mem _ h
  | some interned =>
    rw [copyString_eq_found hfind]
    exact h

theorem copyString_wf {st : InternState} (chars : List Nat)
    (hwf : InternWF st) : InternWF (copyString st chars).2 := by
  cases hfind : tableFindString st.strings chars chars.length
      (hashString chars) with
  | some interned => rw [copyString_eq_found hfind]; exact hwf
  | none =>
    rw [copyString_eq_new hfind]
    have hfind' : (st.strings.find? fun e =>
        decide (e.2.length = chars.length ∧ hashString e.2 = hashString chars ∧
          e.2 = chars)) = none := by
      by_contra hne
      rcases Option.ne_none_iff_exists'.1 hne with ⟨e, he⟩
      unfold tableFindString at hfind
      rw [he] at hfind
      exact Option.noConfusion hfind
    have hnotin : ∀ e ∈ st.strings, e.2 ≠ chars := by
      intro e he hcontra
      have := List.find?_eq_none.1 hfind' e he
      exact this (by simp [hcontra])
    refine ⟨?_, ?_, ?_⟩
    · simp only [List.map_cons, List.nodup_cons]
      refine ⟨?_, hwf.contentsNodup⟩
      intro hmem
      rcases List.mem_map.1 hmem with ⟨e, he, he2⟩
      exact hnotin e he he2
    · simp only [List.map_cons, List.nodup_cons]
      refine ⟨?_, hwf.idsNodup⟩
      intro hmem
      rcases List.mem_map.1 hmem with ⟨e, he, he1⟩
      exact absurd (he1 ▸ hwf.idsFresh e he) (Nat.lt_irrefl _)
    · intro e he
      rcases List.mem_cons.1 he with rfl | he'
      · exact Nat.lt_succ_self _
      · exact Nat.lt_succ_of_lt (hwf.idsFresh e he')

/-- C1: through the interning entry points copyString/takeString (which
share one interning routine), the returned String objects are identical
(same heap address) iff the byte contents are equal, and no two distinct
interned strings ever share contents. -/
theorem C1_string_interning (st : InternState) (s1 s2 : List Nat)
    (hwf : InternWF st) :
    takeString st s1 = copyString st s1 ∧
    InternWF (copyString st s1).2 ∧
    InternWF (copyString (copyString st s1).2 s2).2 ∧
    ((copyString st s1).1 = (copyString (copyString st s1).2 s2).1 ↔
      s1 = s2) ∧
    (∀ e1 ∈ (copyString (copyString st s1).2 s2).2.strings,
      ∀ e2 ∈ (copyString (copyString st s1).2 s2).2.strings,
        e1.2 = e2.2 → e1 = e2) := by
  have hwf1 : InternWF (copyString st s1).2 := copyString_wf s1 hwf
  have hwf2 : InternWF (copyString (copyString st s1).2 s2).2 :=
    copyString_wf s2 hwf1
  have hmem1 : ((copyString st s1).1, s1) ∈ (copyString st s1).2.strings :=
    copyString_mem st s1
  have hmem2 : ((copyString (copyString st s1).2 s2).1, s2) ∈
      (copyString (copyString st s1).2 s2).2.strings :=
    copyString_mem (copyString st s1).2 s2
  refine ⟨rfl, hwf1, hwf2, ⟨?_, ?_⟩, ?_⟩
  · intro hid
    have hmem1' : ((copyString st s1).1, s1) ∈
        (copyString (copyString st s1).2 s2).2.strings :=
      copyString_superset hmem1
    have := nodup_map_mem_inj hwf2.idsNodup hmem1' hmem2 (by simpa using hid)
    simpa using congrArg (fun e => e.2) this
  · intro hs
    subst hs
    have hfind := tableFindString_of_mem hwf1.contentsNodup hmem1
    rw [copyString_eq_found hfind]
  · intro e1 he1 e2 he2 hcont
    have h1 : ((copyString (copyString st s1).2 s2).2.strings.map
        fun e => e.2).Nodup := hwf2.contentsNodup
    exact nodup_map_mem_inj h1 he1 he2 hcont

/-- C1 witness: interning "a" (byte 97) twice in the empty VM returns
the same String object both times. -/
theorem C1_string_interning_witness :
    (copyString ⟨[], 0⟩ [97]).1 =
      (copyString (copyString ⟨[], 0⟩ [97]).2 [97]).1 :=
  ((C1_string_interning ⟨[], 0⟩ [97] [97]
    ⟨by decide, by decide, by simp⟩).2.2.2.1).2 rfl

/-! ## table.c: the physical open-addressed hash table (claim C6)

The table as table.c lays it out: `count` counts live entries plus
tombstones, `entries` is the slot array of length `capacity`.  Keys are
interned ObjString pointers (Nat ids); each key's cached `hash` field is
given by the ambient function `hashOf`.  An empty slot is `(key=NULL,
value=nil)`, a tombstone is `(key=NULL, value=true)`.  findEntry's
unbounded probe loop is embedded with fuel `capacity`; the fuel can only
run out in states the C invariant excludes (where the C loop would not
terminate either), and in that case the embedding leaves the table
unchanged. -/

structure Entry where
  key : Option Nat
  value : Value
deriving DecidableEq, Repr

structure Table where
  count : Nat
  capacity : Nat
  entries : List Entry
deriving DecidableEq, Repr

/-- table.c initTable. -/
def initTable : Table := ⟨0, 0, []⟩

/-- memory.h GROW_CAPACITY. -/
def GROW_CAPACITY (capacity : Nat) : Nat :=
  if capacity < 8 then 8 else capacity * 2

def emptyEntry : Entry := ⟨none, Value.vnil⟩

/-- table.c findEntry's probe loop: at `index`, an empty slot returns the
remembered tombstone or the slot itself, a tombstone is remembered and
probing continues at `(index + 1) & (capacity - 1)`, and a matching key
returns its slot. -/
def findEntryGo (entries : List Entry) (capacity key : Nat) :
    Nat → Nat → Option Nat → Option Nat
  | _, 0, _ => none
  | index, fuel + 1, tombstone =>
    match entries[index]? with
    | none => none
    | some entry =>
      match entry.key with
      | none =>
        if entry.value = Value.vnil then
          some (tombstone.getD index)
        else
          findEntryGo entries capacity key ((index + 1) &&& (capacity - 1))
            fuel (tombstone <|> some index)
      | some k =>
        if k = key then some index
        else
          findEntryGo entries capacity key ((index + 1) &&& (capacity - 1))
            fuel tombstone

/-- table.c findEntry: start probing at `key->hash & (capacity - 1)`. -/
def findEntry (entries : List Entry) (capacity key : Nat)
    (hashOf : Nat → Nat) : Option Nat :=
  findEntryGo entries capacity key (hashOf key &&& (capacity - 1)) capacity none

/-- One iteration of table.c adjustCapacity's reinsertion loop: skip
empty and tombstone slots; reinsert a live entry at its probe slot in
the new array and increment the rebuilt count. -/
def adjustStep (hashOf : Nat → Nat) (capacity : Nat)
    (acc : List Entry × Nat) (entry : Entry) : List Entry × Nat :=
  match entry.key with
  | none => acc
  | some k =>
    match findEntry acc.1 capacity k hashOf with
    | none => acc
    | some dest => (acc.1.set dest ⟨some k, entry.value⟩, acc.2 + 1)

/-- table.c adjustCapacity: allocate `capacity` empty slots, reinsert
every live entry, and recompute the count. -/
def adjustCapacity (hashOf : Nat → Nat) (table : Table)
    (capacity : Nat) : Table :=
  let r := table.entries.foldl (adjustStep hashOf capacity)
    (List.replicate capacity emptyEntry, 0)
  { count := r.2, capacity := capacity, entries := r.1 }

/-- The second half of table.c tableSet, after the growth check: find
the key's slot, write it, and increment the count only for a new key
landing in a truly empty (non-tombstone) slot
(`if (isNewKey && IS_NIL(entry->value)) table->count++;`).  Returns
isNewKey. -/
def tableSetWrite (hashOf : Nat → Nat) (table : Table) (key : Nat)
    (value : Value) : Table × Bool :=
  match findEntry table.entries table.capacity key hashOf with
  | none => (table, false)
  | some idx =>
    match table.entries[idx]? with
    | none => (table, false)
    | some entry =>
      let isNewKey := entry.key.isNone
      (⟨if isNewKey ∧ entry.value = Value.vnil then table.count + 1
          else table.count,
        table.capacity,
        table.entries.set idx ⟨some key, value⟩⟩, isNewKey)

/-- table.c tableSet: grow when `count + 1 > capacity * TABLE_MAX_LOAD`
(the double arithmetic is exact: the condition is 4·(count+1) >
3·capacity), then write the entry. -/
def tableSet (hashOf : Nat → Nat) (table : Table) (key : Nat)
    (value : Value) : Table × Bool :=
  let table :=
    if 4 * (table.count + 1) > 3 * table.capacity then
      adjustCapacity hashOf table (GROW_CAPACITY table.capacity)
    else table
  tableSetWrite hashOf table key value

/-- Live entries: slots holding a key. -/
def liveCount (entries : List Entry) : Nat :=
  entries.countP fun e => e.key.isSome

/-- Tombstones: key-less slots with a non-nil value. -/
def tombCount (entries : List Entry) : Nat :=
  entries.countP fun e => e.key.isNone && !decide (e.value = Value.vnil)

/-- The table.c representation invariant needed for the load-factor
claim: the slot array has `capacity` slots, the capacity is 0 or a power
of two, the load factor is at most 3/4, and `count` dominates live
entries plus tombstones. -/
structure TableWF (table : Table) : Prop where
  len : table.entries.length = table.capacity
  cap : table.capacity = 0 ∨ ∃ k, table.capacity = 2 ^ k
  load : 4 * table.count ≤ 3 * table.capacity
  countBound : liveCount table.entries + tombCount table.entries ≤ table.count

theorem countP_set_le (l : List Entry) (i : Nat) (a : Entry)
    (p : Entry → Bool) :
    (l.set i a).countP p ≤ l.countP p + (if p a then 1 else 0) := by
  induction l generalizing i with
  | nil => simp [List.set]
  | cons x xs ih =>
    cases i with
    | zero =>
      simp only [List.set, List.countP_cons]
      by_cases hx : p x = true <;> by_cases ha : p a = true <;>
        simp [hx, ha] <;> omega
    | succ j =>
      simp only [List.set, List.countP_cons]
      have := ih j
      by_cases hx : p x = true <;> simp [hx] <;> omega

theorem countP_set_eq (l : List Entry) (i : Nat) (a old : Entry)
    (p : Entry → Bool) (h : l[i]? = some old) :
    (l.set i a).countP p + (if p old then 1 else 0) =
      l.countP p + (if p a then 1 else 0) := by
  induction l generalizing i with
  | nil => simp at h
  | cons x xs ih =>
    cases i with
    | zero =>
      have hx : x = old := by simpa using h
      subst hx
      simp only [List.set, List.countP_cons]
      by_cases hx : p x = true <;> by_cases ha : p a = true <;>
        simp [hx, ha] <;> omega
    | succ j =>
      have hj : xs[j]? = some old := by simpa using h
      have := ih j hj
      simp only [List.set, List.countP_cons]
      by_cases hx : p x = true <;> simp [hx] <;> omega

theorem countP_replicate_empty (n : Nat) (p : Entry → Bool)
    (hp : p emptyEntry = false) :
    (List.replicate n emptyEntry).countP p = 0 := by
  induction n with
  | zero => rfl
  | succ m ih => simp [List.replicate_succ, List.countP_cons, hp, ih]

theorem adjustStep_key_none {hashOf : Nat → Nat} {capacity : Nat}
    {acc : List Entry × Nat} {e : Entry} (h : e.key = none) :
    adjustStep hashOf capacity acc e = acc := by
  simp [adjustStep, h]

theorem adjustStep_key_miss {hashOf : Nat → Nat} {capacity : Nat}
    {acc : List Entry × Nat} {e : Entry} {k : Nat} (h : e.key = some k)
    (hf : findEntry acc.1 capacity k hashOf = none) :
    adjustStep hashOf capacity acc e = acc := by
  simp [adjustStep, h, hf]

theorem adjustStep_key_hit {hashOf : Nat → Nat} {capacity : Nat}
    {acc : List Entry × Nat} {e : Entry} {k dest : Nat} (h : e.key = some k)
    (hf : findEntry acc.1 capacity k hashOf = some dest) :
    adjustStep hashOf capacity acc e =
      (acc.1.set dest ⟨some k, e.value⟩, acc.2 + 1) := by
  simp [adjustStep, h, hf]

theorem adjustStep_length (hashOf : Nat → Nat) (capacity : Nat)
    (acc : List Entry × Nat) (e : Entry) :
    (adjustStep hashOf capacity acc e).1.length = acc.1.length := by
  cases hk : e.key with
  | none => rw [adjustStep_key_none hk]
  | some k =>
    cases hf : findEntry acc.1 capacity k hashOf with
    | none => rw [adjustStep_key_miss hk hf]
    | some dest =>
      rw [adjustStep_key_hit hk hf]
      simp [List.length_set]

theorem adjust_foldl_length (hashOf : Nat → Nat) (capacity : Nat)
    (l : List Entry) (acc : List Entry × Nat) :
    (l.foldl (adjustStep hashOf capacity) acc).1.length = acc.1.length := by
  induction l generalizing acc with
  | nil => rfl
  | cons e rest ih =>
    rw [List.foldl_cons, ih, adjustStep_length]

theorem adjust_foldl_count (hashOf : Nat → Nat) (capacity : Nat)
    (l : List Entry) (acc : List Entry × Nat) :
    (l.foldl (adjustStep hashOf capacity) acc).2 ≤ acc.2 + liveCount l := by
  induction l generalizing acc with
  | nil => simp [liveCount]
  | cons e rest ih =>
    rw [List.foldl_cons]
    have hstep : (adjustStep hashOf capacity acc e).2 ≤ acc.2 + 1 := by
      cases hk : e.key with
      | none => rw [adjustStep_key_none hk]; omega
      | some k =>
        cases hf : findEntry acc.1 capacity k hashOf with
        | none => rw [adjustStep_key_miss hk hf]; omega
        | some dest => rw [adjustStep_key_hit hk hf]
    have hstep0 : e.key = none → (adjustStep hashOf capacity acc e).2 = acc.2 := by
      intro hk
      rw [adjustStep_key_none hk]
    have hrest := ih (adjustStep hashOf capacity acc e)
    have hlc : liveCount (e :: rest) =
        liveCount rest + (if e.key.isSome then 1 else 0) := by
      simp [liveCount, List.countP_cons]
    cases hk : e.key with
    | none =>
      rw [hstep0 hk] at hrest
      simp [hk] at hlc
      omega
    | some k =>
      simp [hk] at hlc
      omega

theorem adjust_foldl_inv (hashOf : Nat → Nat) (capacity : Nat)
    (l : List Entry) (acc : List Entry × Nat)
    (h : liveCount acc.1 + tombCount acc.1 ≤ acc.2) :
    liveCount (l.foldl (adjustStep hashOf capacity) acc).1 +
      tombCount (l.foldl (adjustStep hashOf capacity) acc).1 ≤
      (l.foldl (adjustStep hashOf capacity) acc).2 := by
  induction l generalizing acc with
  | nil => exact h
  | cons e rest ih =>
    rw [List.foldl_cons]
    refine ih _ ?_
    cases hk : e.key with
    | none => rw [adjustStep_key_none hk]; exact h
    | some k =>
      cases hf : findEntry acc.1 capacity k hashOf with
      | none => rw [adjustStep_key_miss hk hf]; exact h
      | some dest =>
        rw [adjustStep_key_hit hk hf]
        have hlive := countP_set_le acc.1 dest ⟨some k, e.value⟩
          (fun e => e.key.isSome)
        have htomb := countP_set_le acc.1 dest ⟨some k, e.value⟩
          (fun e => e.key.isNone && !decide (e.value = Value.vnil))
        simp only [Option.isSome_some, Option.isNone_some,
          Bool.false_and] at hlive htomb
        simp only [liveCount, tombCount] at h ⊢
        simp only [if_pos, if_neg, Bool.false_eq_true, not_false_eq_true] at hlive htomb
        omega

theorem adjustCapacity_facts (hashOf : Nat → Nat) (table : Table)
    (capacity : Nat) :
    (adjustCapacity hashOf table capacity).capacity = capacity ∧
    (adjustCapacity hashOf table capacity).entries.length = capacity ∧
    (adjustCapacity hashOf table capacity).count ≤
      liveCount table.entries ∧
    liveCount (adjustCapacity hashOf table capacity).entries +
      tombCount (adjustCapacity hashOf table capacity).entries ≤
      (adjustCapacity hashOf table capacity).count := by
  have hempty_live : liveCount (List.replicate capacity emptyEntry) = 0 := by
    unfold liveCount
    exact countP_replicate_empty _ _ (by simp [emptyEntry])
  have hempty_tomb : tombCount (List.replicate capacity emptyEntry) = 0 := by
    unfold tombCount
    exact countP_replicate_empty _ _ (by simp [emptyEntry])
  refine ⟨rfl, ?_, ?_, ?_⟩
  · show (table.entries.foldl (adjustStep hashOf capacity) _).1.length = _
    rw [adjust_foldl_length]
    simp
  · show (table.entries.foldl (adjustStep hashOf capacity) _).2 ≤ _
    have := adjust_foldl_count hashOf capacity table.entries
      (List.replicate capacity emptyEntry, 0)
    simpa using this
  · show liveCount (table.entries.foldl (adjustStep hashOf capacity) _).1 +
      tombCount (table.entries.foldl (adjustStep hashOf capacity) _).1 ≤
      (table.entries.foldl (adjustStep hashOf capacity) _).2
    apply adjust_foldl_inv
    simpa using Nat.le_of_eq (by omega : liveCount (List.replicate capacity emptyEntry) + tombCount (List.replicate capacity emptyEntry) = 0)

theorem GROW_CAPACITY_pow2 {c : Nat} (h : c = 0 ∨ ∃ k, c = 2 ^ k) :
    ∃ k, GROW_CAPACITY c = 2 ^ k := by
  unfold GROW_CAPACITY
  rcases h with rfl | ⟨k, rfl⟩
  · exact ⟨3, by norm_num⟩
  · by_cases hk : 2 ^ k < 8
    · rw [if_pos hk]
      exact ⟨3, by norm_num⟩
    · rw [if_neg hk]
      exact ⟨k + 1, by rw [pow_succ]⟩

theorem GROW_CAPACITY_room {count cap : Nat} (h : 4 * count ≤ 3 * cap) :
    4 * (count + 1) ≤ 3 * GROW_CAPACITY cap := by
  unfold GROW_CAPACITY
  by_cases hlt : cap < 8
  · rw [if_pos hlt]
    omega
  · rw [if_neg hlt]
    omega

theorem tableSetWrite_find_none {hashOf : Nat → Nat} {t : Table} {key : Nat}
    {value : Value} (h : findEntry t.entries t.capacity key hashOf = none) :
    tableSetWrite hashOf t key value = (t, false) := by
  simp [tableSetWrite, h]

theorem tableSetWrite_cell_none {hashOf : Nat → Nat} {t : Table} {key : Nat}
    {value : Value} {idx : Nat}
    (hfind : findEntry t.entries t.capacity key hashOf = some idx)
    (hcell : t.entries[idx]? = none) :
    tableSetWrite hashOf t key value = (t, false) := by
  simp [tableSetWrite, hfind, hcell]

theorem tableSetWrite_hit {hashOf : Nat → Nat} {t : Table} {key : Nat}
    {value : Value} {idx : Nat} {old : Entry}
    (hfind : findEntry t.entries t.capacity key hashOf = some idx)
    (hcell : t.entries[idx]? = some old) :
    tableSetWrite hashOf t key value =
      (⟨if old.key.isNone ∧ old.value = Value.vnil then t.count + 1
          else t.count,
        t.capacity, t.entries.set idx ⟨some key, value⟩⟩, old.key.isNone) := by
  simp [tableSetWrite, hfind, hcell]

theorem tableSetWrite_wf (hashOf : Nat → Nat) (t : Table) (key : Nat)
    (value : Value)
    (hlen : t.entries.length = t.capacity)
    (hcap : t.capacity = 0 ∨ ∃ k, t.capacity = 2 ^ k)
    (hroom : 4 * (t.count + 1) ≤ 3 * t.capacity)
    (hcb : liveCount t.entries + tombCount t.entries ≤ t.count) :
    TableWF (tableSetWrite hashOf t key value).1 := by
  simp only [liveCount, tombCount] at hcb
  cases hfind : findEntry t.entries t.capacity key hashOf with
  | none =>
    rw [tableSetWrite_find_none hfind]
    exact show TableWF t from
      ⟨hlen, hcap, by omega, by simp only [liveCount, tombCount]; omega⟩
  | some idx =>
    cases hcell : t.entries[idx]? with
    | none =>
      rw [tableSetWrite_cell_none hfind hcell]
      exact show TableWF t from
        ⟨hlen, hcap, by omega, by simp only [liveCount, tombCount]; omega⟩
    | some old =>
      rw [tableSetWrite_hit hfind hcell]
      have hlive := countP_set_eq t.entries idx ⟨some key, value⟩ old
        (fun e => e.key.isSome) hcell
      have htomb := countP_set_eq t.entries idx ⟨some key, value⟩ old
        (fun e => e.key.isNone && !decide (e.value = Value.vnil)) hcell
      cases hknone : old.key with
      | some k0 =>
        simp [hknone] at hlive htomb
        refine ⟨by simpa [List.length_set] using hlen, hcap, ?_, ?_⟩
        · dsimp only
          rw [if_neg (by simp)]
          omega
        · dsimp only
          rw [if_neg (by simp)]
          simp only [liveCount, tombCount]
          omega
      | none =>
        by_cases hv : old.value = Value.vnil
        · simp [hknone, hv] at hlive htomb
          refine ⟨by simpa [List.length_set] using hlen, hcap, ?_, ?_⟩
          · dsimp only
            rw [if_pos ⟨rfl, hv⟩]
            omega
          · dsimp only
            rw [if_pos ⟨rfl, hv⟩]
            simp only [liveCount, tombCount]
            omega
        · simp [hknone, hv] at hlive htomb
          refine ⟨by simpa [List.length_set] using hlen, hcap, ?_, ?_⟩
          · dsimp only
            rw [if_neg (by simp [hv])]
            omega
          · dsimp only
            rw [if_neg (by simp [hv])]
            simp only [liveCount, tombCount]
            omega
theorem tableSet_preserves_wf (hashOf : Nat → Nat) (table : Table)
    (key : Nat) (value : Value) (hwf : TableWF table) :
    TableWF (tableSet hashOf table key value).1 := by
  unfold tableSet
  by_cases hgrow : 4 * (table.count + 1) > 3 * table.capacity
  · rw [if_pos hgrow]
    have hadj := adjustCapacity_facts hashOf table (GROW_CAPACITY table.capacity)
    apply tableSetWrite_wf
    · rw [hadj.2.1, hadj.1]
    · exact Or.inr (hadj.1 ▸ GROW_CAPACITY_pow2 hwf.cap)
    · rw [hadj.1]
      have hc1 : (adjustCapacity hashOf table
          (GROW_CAPACITY table.capacity)).count ≤ table.count := by
        have h1 := hadj.2.2.1
        have h2 := hwf.countBound
        have h3 : liveCount table.entries ≤
            liveCount table.entries + tombCount table.entries :=
          Nat.le_add_right _ _
        omega
      have hr := GROW_CAPACITY_room hwf.load
      omega
    · exact hadj.2.2.2
  · rw [if_neg hgrow]
    exact tableSetWrite_wf hashOf table key value hwf.len hwf.cap
      (by omega) hwf.countBound

/-- C6: after any tableSet, count ≤ 0.75 · capacity (stated exactly as
4·count ≤ 3·capacity) and the capacity is 0 or a power of two; the
representation invariant TableWF is preserved from any well-formed table
(globals, interned strings, class method tables and instance field
tables all start as initTable, which satisfies it). -/
theorem C6_table_load_factor (hashOf : Nat → Nat) (table : Table)
    (key : Nat) (value : Value) (hwf : TableWF table) :
    TableWF (tableSet hashOf table key value).1 ∧
    4 * (tableSet hashOf table key value).1.count ≤
      3 * (tableSet hashOf table key value).1.capacity ∧
    ((tableSet hashOf table key value).1.capacity = 0 ∨
      ∃ k, (tableSet hashOf table key value).1.capacity = 2 ^ k) ∧
    TableWF initTable := by
  have h := tableSet_preserves_wf hashOf table key value hwf
  refine ⟨h, h.load, h.cap, ?_, Or.inl rfl, ?_, ?_⟩
  · rfl
  · simp [initTable]
  · simp [initTable, liveCount, tombCount]

/-- C6 witness: inserting into the empty table grows it to capacity 8
and the load bound holds. -/
theorem C6_table_load_factor_witness :
    4 * (tableSet (fun _ => 0) initTable 1 Value.vnil).1.count ≤
      3 * (tableSet (fun _ => 0) initTable 1 Value.vnil).1.capacity ∧
    (tableSet (fun _ => 0) initTable 1 Value.vnil).1.count = 1 ∧
    (tableSet (fun _ => 0) initTable 1 Value.vnil).1.capacity = 8 := by
  have h := C6_table_load_factor (fun _ => 0) initTable 1 Value.vnil
    ⟨rfl, Or.inl rfl, by simp [initTable], by
      simp [initTable, liveCount, tombCount]⟩
  exact ⟨h.2.1, by decide, by decide⟩

end Clox
